import Mathlib

/-!
Verification of the crossandra-rs matching core: the literal trie
(src/tree.rs) and the pattern preprocessor (src/patterns.rs).
Strings are modelled through their character lists; the hash map of
children is modelled as an association list with lookup by key, and the
hash set of anchor indices as a list queried by membership.
-/

namespace Crossandra

/-- Embeds `Tree` from src/tree.rs: an optional terminal value and a map
from characters to child subtrees (`FxHashMap` modelled as an association
list looked up by key). -/
inductive Tree where
  | node (value : Option String) (children : List (Char × Tree))

/-- Accessor for the `value` field of a tree node. -/
def Tree.val : Tree → Option String
  | Tree.node v _ => v

/-- Accessor for the `children` field of a tree node. -/
def Tree.kids : Tree → List (Char × Tree)
  | Tree.node _ ch => ch

/-- Embeds `self.children.get(&c)`: first entry with the given key. -/
def getChild : List (Char × Tree) → Char → Option Tree
  | [], _ => none
  | (k, t) :: rest, c => if k = c then some t else getChild rest c

/-- Embeds writing through `children.entry(c)`: replace the entry with the
given key in place, or append a fresh entry when the key is absent. -/
def setChild : List (Char × Tree) → Char → Tree → List (Char × Tree)
  | [], c, t => [(c, t)]
  | (k, u) :: rest, c, t =>
    if k = c then (k, t) :: rest else (k, u) :: setChild rest c t

/-- Embeds the insertion loop body of `generate_tree` (src/tree.rs lines
58-81) for one literal, walking the character list of the literal. At the
last character the terminal value is set while the children already
present are kept (`and_modify` / `or_insert(Tree::leaf)`); at earlier
characters the walk descends through `entry(c).or_default()`. An empty
literal leaves the tree unchanged, as the Rust while-loop body never runs. -/
def insert (name : String) : List Char → Tree → Tree
  | [], t => t
  | [c], Tree.node v ch =>
    Tree.node v (setChild ch c
      (match getChild ch c with
        | some (Tree.node _ gs) => Tree.node (some name) gs
        | none => Tree.node (some name) []))
  | c :: c2 :: rest, Tree.node v ch =>
    Tree.node v (setChild ch c
      (insert name (c2 :: rest) ((getChild ch c).getD (Tree.node none []))))

/-- Embeds one step of the stable sort by `Reverse(literal.len())`:
insert an item into a list already sorted by descending literal length,
after all strictly longer items and before equal-length ones seen later. -/
def sortedInsert (x : String × String) : List (String × String) → List (String × String)
  | [] => [x]
  | y :: rest =>
    if x.2.length < y.2.length then y :: sortedInsert x rest else x :: y :: rest

/-- Embeds `sorted_items`: the literal list stably sorted by descending
literal length. -/
def sortDesc : List (String × String) → List (String × String)
  | [] => []
  | x :: rest => sortedInsert x (sortDesc rest)

/-- Embeds `generate_tree` from src/tree.rs: sort the (name, literal)
pairs by descending literal length, then insert each into an empty root. -/
def generate_tree (literals : List (String × String)) : Tree :=
  List.foldl (fun t p => insert p.1 p.2.data t) (Tree.node none []) (sortDesc literals)

/-- Embeds the loop of `Tree::match_longest_prefix` (src/tree.rs lines
17-36): walk the input characters keeping the best terminal seen so far
(as consumed length and value); on a missing child edge return the best,
and at the end of input prefer a terminal at the current node. -/
def lmGo : Tree → List Char → Nat → Option (Nat × String) → Option (Nat × String)
  | Tree.node v _, [], k, best =>
    match v with
    | some name => some (k, name)
    | none => best
  | Tree.node v ch, c :: rest, k, best =>
    let best2 := match v with
      | some name => some (k, name)
      | none => best
    match getChild ch c with
    | none => best2
    | some child => lmGo child rest (k + 1) best2

/-- Embeds `Tree::match_longest_prefix`: returns the matched prefix of
the input (the slice `&input[..current_pos]`, recovered here as the first
`k` characters) together with the terminal value. -/
def Tree.longest_match (t : Tree) (input : String) : Option (String × String) :=
  (lmGo t input.data 0 none).map (fun p => (String.mk (input.data.take p.1), p.2))

/-- Subtree reached from a tree by following a character path. -/
def subtreeAt : Tree → List Char → Option Tree
  | t, [] => some t
  | Tree.node _ ch, c :: rest =>
    match getChild ch c with
    | none => none
    | some child => subtreeAt child rest

/-- Terminal value carried by the node at a character path, if the node
exists and carries one. -/
def valueAt (t : Tree) (w : List Char) : Option String :=
  match subtreeAt t w with
  | none => none
  | some u => u.val

/-- Embeds the first pass of `force_start_anchor` (src/patterns.rs lines
24-32): the byte indices (computed from UTF-8 sizes, as `char_indices`
does) of the characters that are a caret not preceded by an opening
bracket or a backslash; the first character has the NUL previous
character. -/
def anchorIdx (prev : Char) (i : Nat) : List Char → List Nat
  | [] => []
  | c :: rest =>
    let tail := anchorIdx c (i + c.utf8Size) rest
    if c = '^' ∧ prev ≠ '[' ∧ prev ≠ '\\' then i :: tail else tail

/-- Embeds the second pass of `force_start_anchor` (src/patterns.rs lines
36-40): keep the characters whose position in `chars().enumerate()` is
not in the anchor index set. -/
def removeAtGo (i : Nat) (anchors : List Nat) : List Char → List Char
  | [] => []
  | c :: rest =>
    if i ∈ anchors then removeAtGo (i + 1) anchors rest
    else c :: removeAtGo (i + 1) anchors rest

/-- Embeds `force_start_anchor` from src/patterns.rs: collect the byte
indices of removable anchors, drop the characters whose character ordinal
lies in that set, and wrap the result in an anchored non-capturing group. -/
def force_start_anchor (pattern : String) : String :=
  "^(?:" ++ String.mk (removeAtGo 0 (anchorIdx (Char.ofNat 0) 0 pattern.data) pattern.data) ++ ")"

/-- Follows the words of the spec (section 4.1): scanning left to right
tracking the immediately preceding character, delete every caret whose
predecessor is neither an opening bracket nor a backslash; the first
character has no protecting predecessor. -/
def specClean (prev : Char) : List Char → List Char
  | [] => []
  | c :: rest =>
    if c = '^' ∧ prev ≠ '[' ∧ prev ≠ '\\' then specClean c rest
    else c :: specClean c rest

/-- Follows the words of the spec: the cleaned pattern wrapped as an
anchored non-capturing group. -/
def specAnchored (pattern : String) : String :=
  "^(?:" ++ String.mk (specClean (Char.ofNat 0) pattern.data) ++ ")"

/-- Modelled from the spec: the error enumeration of the crate
(src/error.rs is not part of the examined sources). The variant used by
pattern compilation is visible in src/patterns.rs line 16 and wraps only
the underlying compiler diagnostic; the scan-time variant carries the
offending character and its position. The diagnostic type is kept
abstract as a type parameter. -/
inductive Error (E : Type) where
  | InvalidRegex (cause : E)
  | BadToken (c : Char) (pos : Nat)
deriving DecidableEq

/-- Embeds `compile` from src/patterns.rs: map the external regex
capability over the sources and collect, stopping at the first failure
(the semantics of collecting into a `Result`). The capability is the
opaque function `rnew`. -/
def compile {E R : Type} (rnew : String → Except E R) :
    List (String × String) → Except (Error E) (List (String × R))
  | [] => Except.ok []
  | (key, val) :: rest =>
    match rnew val with
    | Except.error e => Except.error (Error.InvalidRegex e)
    | Except.ok r =>
      match compile rnew rest with
      | Except.error e => Except.error e
      | Except.ok out => Except.ok ((key, r) :: out)

/-- Embeds `adjust` from src/patterns.rs: anchor-force every source,
keeping names and order. -/
def adjust (patterns : List (String × String)) : List (String × String) :=
  patterns.map (fun p => (p.1, force_start_anchor p.2))

/-- Embeds `prepare` from src/patterns.rs. -/
def prepare {E R : Type} (rnew : String → Except E R)
    (patterns : List (String × String)) : Except (Error E) (List (String × R)) :=
  compile rnew (adjust patterns)

/-- Concrete toy regex capability used for witnesses: fails exactly on
the anchored form of the invalid source `+`, with diagnostic 7. -/
def rnewToy : String → Except Nat Unit :=
  fun s => if s = "^(?:+)" then Except.error 7 else Except.ok ()

/-- Concrete toy regex capability that accepts every source, returning
the source itself as the compiled matcher. -/
def rnewOk : String → Except Nat String :=
  fun s => Except.ok s

/-! Lemmas about the association list of children. -/

theorem getChild_setChild (ch : List (Char × Tree)) (c : Char) (t : Tree) (d : Char) :
    getChild (setChild ch c t) d = if c = d then some t else getChild ch d := by
  induction ch with
  | nil =>
    by_cases h : c = d <;> simp [setChild, getChild, h]
  | cons hd rest ih =>
    obtain ⟨k, u⟩ := hd
    by_cases hkc : k = c
    · subst hkc
      by_cases hkd : k = d <;> simp [setChild, getChild, hkd]
    · by_cases hkd : k = d
      · subst hkd
        have hcd : ¬ c = k := fun h => hkc h.symm
        simp [setChild, getChild, hkc, hcd]
      · simp [setChild, getChild, hkc, hkd, ih]

/-! Lemmas about `valueAt`. -/

theorem valueAt_node_nil (v : Option String) (ch : List (Char × Tree)) :
    valueAt (Tree.node v ch) [] = v := rfl

theorem valueAt_cons_none {ch : List (Char × Tree)} {c : Char}
    (v : Option String) (u : List Char) (hg : getChild ch c = none) :
    valueAt (Tree.node v ch) (c :: u) = none := by
  simp [valueAt, subtreeAt, hg]

theorem valueAt_cons_some {ch : List (Char × Tree)} {c : Char} {child : Tree}
    (v : Option String) (u : List Char) (hg : getChild ch c = some child) :
    valueAt (Tree.node v ch) (c :: u) = valueAt child u := by
  simp [valueAt, subtreeAt, hg]

theorem valueAt_empty (u : List Char) :
    valueAt (Tree.node none []) u = none := by
  cases u <;> simp [valueAt, subtreeAt, getChild, Tree.val]

theorem valueAt_val_irrel (a b : Option String) (ch : List (Char × Tree))
    (u : List Char) (hu : u ≠ []) :
    valueAt (Tree.node a ch) u = valueAt (Tree.node b ch) u := by
  cases u with
  | nil => exact absurd rfl hu
  | cons c u' =>
    cases hg : getChild ch c with
    | none => rw [valueAt_cons_none a u' hg, valueAt_cons_none b u' hg]
    | some child => rw [valueAt_cons_some a u' hg, valueAt_cons_some b u' hg]

theorem valueAt_setChild_ne (v : Option String) (ch : List (Char × Tree))
    (c d : Char) (t0 : Tree) (u : List Char) (hcd : c ≠ d) :
    valueAt (Tree.node v (setChild ch c t0)) (d :: u) = valueAt (Tree.node v ch) (d :: u) := by
  have hgs : getChild (setChild ch c t0) d = getChild ch d := by
    rw [getChild_setChild]
    simp [hcd]
  cases hg : getChild ch d with
  | none =>
    rw [valueAt_cons_none v u (hgs.trans hg), valueAt_cons_none v u hg]
  | some child =>
    rw [valueAt_cons_some v u (hgs.trans hg), valueAt_cons_some v u hg]

/-! Lemmas about `insert`. -/

theorem insert_valueAt_self (name : String) (w : List Char) (t : Tree) (hw : w ≠ []) :
    valueAt (insert name w t) w = some name := by
  induction w generalizing t with
  | nil => exact absurd rfl hw
  | cons c w' ih =>
    obtain ⟨v, ch⟩ := t
    cases w' with
    | nil =>
      cases hg : getChild ch c with
      | none =>
        have h1 : insert name [c] (Tree.node v ch)
            = Tree.node v (setChild ch c (Tree.node (some name) [])) := by
          simp [insert, hg]
        have h2 : getChild (setChild ch c (Tree.node (some name) [])) c
            = some (Tree.node (some name) []) := by
          simp [getChild_setChild]
        rw [h1, valueAt_cons_some v [] h2]
        rfl
      | some tc =>
        obtain ⟨vtc, gs⟩ := tc
        have h1 : insert name [c] (Tree.node v ch)
            = Tree.node v (setChild ch c (Tree.node (some name) gs)) := by
          simp [insert, hg]
        have h2 : getChild (setChild ch c (Tree.node (some name) gs)) c
            = some (Tree.node (some name) gs) := by
          simp [getChild_setChild]
        rw [h1, valueAt_cons_some v [] h2]
        rfl
    | cons c2 w'' =>
      have h1 : insert name (c :: c2 :: w'') (Tree.node v ch)
          = Tree.node v (setChild ch c
              (insert name (c2 :: w'') ((getChild ch c).getD (Tree.node none [])))) := by
        simp [insert]
      have h2 : getChild
          (setChild ch c (insert name (c2 :: w'') ((getChild ch c).getD (Tree.node none [])))) c
          = some (insert name (c2 :: w'') ((getChild ch c).getD (Tree.node none []))) := by
        simp [getChild_setChild]
      rw [h1, valueAt_cons_some v (c2 :: w'') h2]
      exact ih _ (by simp)

theorem insert_valueAt_other (name : String) (w u : List Char) (t : Tree) (hu : u ≠ w) :
    valueAt (insert name w t) u = valueAt t u := by
  induction w generalizing u t with
  | nil => simp [insert]
  | cons c w' ih =>
    obtain ⟨v, ch⟩ := t
    cases w' with
    | nil =>
      cases u with
      | nil =>
        cases hg : getChild ch c with
        | none => simp [insert, hg, valueAt_node_nil]
        | some tc =>
          obtain ⟨vtc, gs⟩ := tc
          simp [insert, hg, valueAt_node_nil]
      | cons d u' =>
        by_cases hcd : c = d
        · subst hcd
          have hu' : u' ≠ [] := by
            intro h
            exact hu (by simp [h])
          cases hg : getChild ch c with
          | none =>
            have h1 : insert name [c] (Tree.node v ch)
                = Tree.node v (setChild ch c (Tree.node (some name) [])) := by
              simp [insert, hg]
            have h2 : getChild (setChild ch c (Tree.node (some name) [])) c
                = some (Tree.node (some name) []) := by
              simp [getChild_setChild]
            rw [h1, valueAt_cons_some v u' h2, valueAt_cons_none v u' hg]
            rw [valueAt_val_irrel (some name) none [] u' hu']
            exact valueAt_empty u'
          | some tc =>
            obtain ⟨vtc, gs⟩ := tc
            have h1 : insert name [c] (Tree.node v ch)
                = Tree.node v (setChild ch c (Tree.node (some name) gs)) := by
              simp [insert, hg]
            have h2 : getChild (setChild ch c (Tree.node (some name) gs)) c
                = some (Tree.node (some name) gs) := by
              simp [getChild_setChild]
            rw [h1, valueAt_cons_some v u' h2, valueAt_cons_some v u' hg]
            exact valueAt_val_irrel (some name) vtc gs u' hu'
        · cases hg : getChild ch c with
          | none =>
            have h1 : insert name [c] (Tree.node v ch)
                = Tree.node v (setChild ch c (Tree.node (some name) [])) := by
              simp [insert, hg]
            rw [h1, valueAt_setChild_ne v ch c d _ u' hcd]
          | some tc =>
            obtain ⟨vtc, gs⟩ := tc
            have h1 : insert name [c] (Tree.node v ch)
                = Tree.node v (setChild ch c (Tree.node (some name) gs)) := by
              simp [insert, hg]
            rw [h1, valueAt_setChild_ne v ch c d _ u' hcd]
    | cons c2 w'' =>
      have h1 : insert name (c :: c2 :: w'') (Tree.node v ch)
          = Tree.node v (setChild ch c
              (insert name (c2 :: w'') ((getChild ch c).getD (Tree.node none [])))) := by
        simp [insert]
      cases u with
      | nil => rw [h1, valueAt_node_nil, valueAt_node_nil]
      | cons d u' =>
        by_cases hcd : c = d
        · subst hcd
          have hu' : u' ≠ c2 :: w'' := by
            intro h
            exact hu (by simp [h])
          have h2 : getChild
              (setChild ch c (insert name (c2 :: w'') ((getChild ch c).getD (Tree.node none [])))) c
              = some (insert name (c2 :: w'') ((getChild ch c).getD (Tree.node none []))) := by
            simp [getChild_setChild]
          rw [h1, valueAt_cons_some v u' h2, ih u' _ hu']
          cases hg : getChild ch c with
          | none =>
            rw [valueAt_cons_none v u' hg]
            simp [hg, valueAt_empty]
          | some tc =>
            rw [valueAt_cons_some v u' hg]
            simp [hg]
        · rw [h1, valueAt_setChild_ne v ch c d _ u' hcd]

theorem insert_isSome (name : String) (w : List Char) (t : Tree) (u : List Char) (m : String)
    (h : valueAt t u = some m) : ∃ m2, valueAt (insert name w t) u = some m2 := by
  by_cases hw : w = []
  · subst hw
    exact ⟨m, h⟩
  · by_cases huw : u = w
    · subst huw
      exact ⟨name, insert_valueAt_self name u t hw⟩
    · rw [insert_valueAt_other name w u t huw]
      exact ⟨m, h⟩

theorem foldl_valueAt_isSome (l : List (String × String)) (t : Tree) (u : List Char) (m : String)
    (h : valueAt t u = some m) :
    ∃ m2, valueAt (List.foldl (fun t p => insert p.1 p.2.data t) t l) u = some m2 := by
  induction l generalizing t m with
  | nil => exact ⟨m, h⟩
  | cons p rest ih =>
    simp only [List.foldl_cons]
    obtain ⟨m2, h2⟩ := insert_isSome p.1 p.2.data t u m h
    exact ih _ m2 h2

theorem foldl_complete (l : List (String × String)) (t : Tree) (n w : String)
    (hmem : (n, w) ∈ l) (hw : w.data ≠ []) :
    ∃ m, valueAt (List.foldl (fun t p => insert p.1 p.2.data t) t l) w.data = some m := by
  induction l generalizing t with
  | nil => cases hmem
  | cons p rest ih =>
    simp only [List.foldl_cons]
    rcases List.mem_cons.mp hmem with h | h
    · have hself : valueAt (insert p.1 p.2.data t) w.data = some n := by
        rw [← h]
        exact insert_valueAt_self n w.data t hw
      exact foldl_valueAt_isSome rest _ w.data n hself
    · exact ih _ h

theorem foldl_sound (l : List (String × String)) (t : Tree) (u : List Char) (n : String)
    (h : valueAt (List.foldl (fun t p => insert p.1 p.2.data t) t l) u = some n) :
    (∃ w : String, (n, w) ∈ l ∧ w.data = u) ∨ valueAt t u = some n := by
  induction l generalizing t with
  | nil => exact Or.inr h
  | cons p rest ih =>
    obtain ⟨pn, pw⟩ := p
    simp only [List.foldl_cons] at h
    rcases ih _ h with ⟨w, hw, hwu⟩ | h2
    · exact Or.inl ⟨w, List.mem_cons_of_mem _ hw, hwu⟩
    · by_cases hpw : pw.data = []
      · have hid : insert pn pw.data t = t := by
          rw [hpw]
          rfl
        rw [hid] at h2
        exact Or.inr h2
      · by_cases huw : u = pw.data
        · subst huw
          rw [insert_valueAt_self pn pw.data t hpw] at h2
          have hn : pn = n := Option.some.inj h2
          subst hn
          exact Or.inl ⟨pw, List.mem_cons_self _ _, rfl⟩
        · rw [insert_valueAt_other pn pw.data u t huw] at h2
          exact Or.inr h2

theorem insert_valueAt_root (name : String) (w : List Char) (t : Tree) :
    valueAt (insert name w t) [] = valueAt t [] := by
  cases w with
  | nil => rfl
  | cons c w' =>
    exact insert_valueAt_other name (c :: w') [] t (by simp)

theorem foldl_valueAt_root (l : List (String × String)) (t : Tree) :
    valueAt (List.foldl (fun t p => insert p.1 p.2.data t) t l) [] = valueAt t [] := by
  induction l generalizing t with
  | nil => rfl
  | cons p rest ih =>
    simp only [List.foldl_cons]
    rw [ih, insert_valueAt_root]

theorem mem_sortedInsert (x p : String × String) (l : List (String × String)) :
    p ∈ sortedInsert x l ↔ p = x ∨ p ∈ l := by
  induction l with
  | nil => simp [sortedInsert]
  | cons y rest ih =>
    by_cases h : x.2.length < y.2.length
    · simp only [sortedInsert, if_pos h, List.mem_cons, ih]
      tauto
    · simp [sortedInsert, if_neg h]

theorem mem_sortDesc (p : String × String) (l : List (String × String)) :
    p ∈ sortDesc l ↔ p ∈ l := by
  induction l with
  | nil => simp [sortDesc]
  | cons x rest ih =>
    simp [sortDesc, mem_sortedInsert, ih]

theorem generate_tree_complete (L : List (String × String)) (n w : String)
    (hmem : (n, w) ∈ L) (hw : w.data ≠ []) :
    ∃ m, valueAt (generate_tree L) w.data = some m := by
  unfold generate_tree
  exact foldl_complete _ _ n w ((mem_sortDesc _ _).mpr hmem) hw

theorem generate_tree_sound (L : List (String × String)) (u : List Char) (n : String)
    (h : valueAt (generate_tree L) u = some n) :
    ∃ w : String, (n, w) ∈ L ∧ w.data = u := by
  unfold generate_tree at h
  rcases foldl_sound _ _ _ _ h with ⟨w, hw, hwu⟩ | h2
  · exact ⟨w, (mem_sortDesc _ _).mp hw, hwu⟩
  · rw [valueAt_empty] at h2
    cases h2

theorem generate_tree_root (L : List (String × String)) :
    valueAt (generate_tree L) [] = none := by
  unfold generate_tree
  rw [foldl_valueAt_root]
  rfl

/-! Lemmas about the matching loop. -/

theorem lmGo_best (rem : List Char) (t : Tree) (k k0 : Nat) (m : String)
    (best : Option (Nat × String)) (hb : best = some (k0, m)) (hk : k0 ≤ k) :
    ∃ j n, lmGo t rem k best = some (j, n) ∧ k0 ≤ j := by
  induction rem generalizing t k k0 m best with
  | nil =>
    obtain ⟨v, ch⟩ := t
    cases v with
    | some name => exact ⟨k, name, by simp [lmGo], hk⟩
    | none => exact ⟨k0, m, by simp [lmGo, hb], Nat.le_refl _⟩
  | cons c rest ih =>
    obtain ⟨v, ch⟩ := t
    cases v with
    | some name =>
      cases hg : getChild ch c with
      | none => exact ⟨k, name, by simp [lmGo, hg], hk⟩
      | some child =>
        obtain ⟨j, n, hj, hjk⟩ :=
          ih child (k + 1) k name (some (k, name)) rfl (Nat.le_succ k)
        refine ⟨j, n, ?_, Nat.le_trans hk hjk⟩
        simp only [lmGo, hg]
        exact hj
    | none =>
      cases hg : getChild ch c with
      | none => exact ⟨k0, m, by simp [lmGo, hg, hb], Nat.le_refl _⟩
      | some child =>
        obtain ⟨j, n, hj, hjk⟩ :=
          ih child (k + 1) k0 m best hb (Nat.le_trans hk (Nat.le_succ k))
        refine ⟨j, n, ?_, hjk⟩
        simp only [lmGo, hg]
        exact hj

theorem lmGo_sound (rem : List Char) (t : Tree) (k : Nat)
    (best : Option (Nat × String)) (j : Nat) (n : String)
    (h : lmGo t rem k best = some (j, n)) :
    best = some (j, n) ∨
      ∃ d, d ≤ rem.length ∧ j = k + d ∧ valueAt t (rem.take d) = some n := by
  induction rem generalizing t k best with
  | nil =>
    obtain ⟨v, ch⟩ := t
    cases v with
    | some name =>
      simp [lmGo] at h
      right
      exact ⟨0, Nat.zero_le _, by omega, by simp [valueAt_node_nil, h]⟩
    | none =>
      simp [lmGo] at h
      left
      rw [h]
  | cons c rest ih =>
    obtain ⟨v, ch⟩ := t
    cases hg : getChild ch c with
    | none =>
      cases v with
      | some name =>
        simp [lmGo, hg] at h
        right
        exact ⟨0, Nat.zero_le _, by omega, by simp [valueAt_node_nil, h]⟩
      | none =>
        simp [lmGo, hg] at h
        left
        rw [h]
    | some child =>
      cases v with
      | some name =>
        have h2 : lmGo child rest (k + 1) (some (k, name)) = some (j, n) := by
          simp only [lmGo, hg] at h
          exact h
        rcases ih child (k + 1) (some (k, name)) h2 with hb | ⟨d, hd, hj, hval⟩
        · right
          obtain ⟨hjk, hnm⟩ := Prod.mk.injEq .. ▸ Option.some.inj hb
          exact ⟨0, Nat.zero_le _, by omega, by simp [valueAt_node_nil, hnm]⟩
        · right
          refine ⟨d + 1, by simpa using hd, by omega, ?_⟩
          rw [List.take_succ_cons, valueAt_cons_some _ _ hg]
          exact hval
      | none =>
        have h2 : lmGo child rest (k + 1) best = some (j, n) := by
          simp only [lmGo, hg] at h
          exact h
        rcases ih child (k + 1) best h2 with hb | ⟨d, hd, hj, hval⟩
        · left
          exact hb
        · right
          refine ⟨d + 1, by simpa using hd, by omega, ?_⟩
          rw [List.take_succ_cons, valueAt_cons_some _ _ hg]
          exact hval

theorem lmGo_complete (rem : List Char) (t : Tree) (k : Nat)
    (best : Option (Nat × String)) (d : Nat) (m : String)
    (hd : d ≤ rem.length) (hval : valueAt t (rem.take d) = some m) :
    ∃ j n, lmGo t rem k best = some (j, n) ∧ k + d ≤ j := by
  induction rem generalizing t k best d with
  | nil =>
    obtain ⟨v, ch⟩ := t
    have hd0 : d = 0 := Nat.le_zero.mp hd
    subst hd0
    rw [List.take_nil, valueAt_node_nil] at hval
    subst hval
    exact ⟨k, m, by simp [lmGo], by omega⟩
  | cons c rest ih =>
    obtain ⟨v, ch⟩ := t
    cases d with
    | zero =>
      rw [List.take_zero, valueAt_node_nil] at hval
      subst hval
      cases hg : getChild ch c with
      | none => exact ⟨k, m, by simp [lmGo, hg], by omega⟩
      | some child =>
        obtain ⟨j, n, hj, hjk⟩ :=
          lmGo_best rest child (k + 1) k m (some (k, m)) rfl (Nat.le_succ k)
        refine ⟨j, n, ?_, by omega⟩
        simp only [lmGo, hg]
        exact hj
    | succ d' =>
      rw [List.take_succ_cons] at hval
      cases hg : getChild ch c with
      | none => rw [valueAt_cons_none _ _ hg] at hval; cases hval
      | some child =>
        rw [valueAt_cons_some _ _ hg] at hval
        obtain ⟨j, n, hj, hjk⟩ :=
          ih child (k + 1) (match v with | some name => some (k, name) | none => best) d'
            (by simpa using hd) hval
        refine ⟨j, n, ?_, by omega⟩
        simp only [lmGo, hg]
        exact hj

theorem strEq (a b : String) (h : a.data = b.data) : a = b := by
  cases a
  cases b
  exact congrArg String.mk h

theorem longest_match_sound_aux (L : List (String × String)) (s p n : String)
    (h : Tree.longest_match (generate_tree L) s = some (p, n)) :
    p.data ≠ [] ∧ s.data.take p.data.length = p.data ∧ (n, p) ∈ L := by
  unfold Tree.longest_match at h
  cases hlm : lmGo (generate_tree L) s.data 0 none with
  | none =>
    rw [hlm] at h
    cases h
  | some jn =>
    obtain ⟨j, n'⟩ := jn
    rw [hlm] at h
    have hpair : (String.mk (s.data.take j), n') = (p, n) := Option.some.inj h
    have hp : String.mk (s.data.take j) = p := congrArg Prod.fst hpair
    have hn : n' = n := congrArg Prod.snd hpair
    subst hn
    rcases lmGo_sound _ _ _ _ _ _ hlm with hb | ⟨d, hd, hj, hval⟩
    · cases hb
    · have hj0 : j = d := by omega
      subst hj0
      have hd0 : j ≠ 0 := by
        intro h0
        rw [h0, List.take_zero, generate_tree_root] at hval
        cases hval
      obtain ⟨w, hwmem, hwdata⟩ := generate_tree_sound L _ _ hval
      have hpd : p.data = s.data.take j := by
        rw [← hp]
      have hlen : p.data.length = j := by
        rw [hpd, List.length_take]
        omega
      refine ⟨?_, ?_, ?_⟩
      · intro hnil
        rw [hnil] at hlen
        exact hd0 hlen.symm
      · rw [hlen, ← hpd]
      · have hwp : w = p := strEq w p (by rw [hwdata, hpd])
        rw [← hwp]
        exact hwmem

/-- C9: whenever `match_longest_prefix` on the trie built by
`generate_tree L` returns `some (p, n)`, the matched prefix `p` is a
non-empty prefix of the input and `L` contains the entry `(n, p)`;
moreover the root of the generated trie never carries a terminal value,
so a zero-length match is never returned (an empty literal is silently
ignored by the construction). -/
theorem claim_longest_match_soundness (L : List (String × String)) (s p n : String)
    (h : Tree.longest_match (generate_tree L) s = some (p, n)) :
    p.data ≠ [] ∧ s.data.take p.data.length = p.data ∧ (n, p) ∈ L ∧
      valueAt (generate_tree L) [] = none := by
  obtain ⟨h1, h2, h3⟩ := longest_match_sound_aux L s p n h
  exact ⟨h1, h2, h3, generate_tree_root L⟩

/-- Witness for C9 at a concrete literal set and input. -/
theorem claim_longest_match_soundness_witness :
    ("ab" : String).data ≠ [] ∧
      ("abc" : String).data.take ("ab" : String).data.length = ("ab" : String).data ∧
      ("x", ("ab" : String)) ∈ [("x", ("ab" : String))] ∧
      valueAt (generate_tree [("x", "ab")]) [] = none :=
  claim_longest_match_soundness [("x", "ab")] "abc" "ab" "x" (by decide)

/-- C1 counterexample: the literal text of the entry ("a", "") is a
prefix of the input "x", yet the longest-prefix match on the generated
trie returns no match at all, because an empty literal never receives a
terminal node. The claim as stated (for every literal that is a prefix,
a match at least that long is returned) therefore fails at this input. -/
theorem claim_longest_match_completeness_cex :
    ("a", ("" : String)) ∈ [("a", ("" : String))] ∧
      ("x" : String).data.take ("" : String).data.length = ("" : String).data ∧
      Tree.longest_match (generate_tree [("a", "")]) "x" = none := by
  decide

/-- C1 as amended: for every entry `(n, w)` of `L` whose literal text `w`
is non-empty and a prefix of the input `s`, the longest-prefix match on
the trie built by `generate_tree L` returns a match whose matched prefix
is at least as long as `w`; in particular it is at least as long as the
longest non-empty literal text of `L` that is a prefix of `s`. -/
theorem claim_longest_match_completeness (L : List (String × String)) (s n w : String)
    (hmem : (n, w) ∈ L) (hw : w.data ≠ [])
    (hpref : s.data.take w.data.length = w.data) :
    ∃ p m, Tree.longest_match (generate_tree L) s = some (p, m) ∧
      w.data.length ≤ p.data.length := by
  obtain ⟨m0, hval⟩ := generate_tree_complete L n w hmem hw
  have hdlen : w.data.length ≤ s.data.length := by
    have hlt := congrArg List.length hpref
    rw [List.length_take] at hlt
    omega
  have hval2 : valueAt (generate_tree L) (s.data.take w.data.length) = some m0 := by
    rw [hpref]
    exact hval
  obtain ⟨j, m, hj, hjk⟩ :=
    lmGo_complete s.data (generate_tree L) 0 none w.data.length m0 hdlen hval2
  refine ⟨String.mk (s.data.take j), m, ?_, ?_⟩
  · unfold Tree.longest_match
    rw [hj]
    rfl
  · show w.data.length ≤ (s.data.take j).length
    rw [List.length_take]
    omega

/-- Witness for the amended C1 at a concrete literal set and input. -/
theorem claim_longest_match_completeness_witness :
    ∃ p m, Tree.longest_match (generate_tree [("x", "ab"), ("y", "a")]) "abc" = some (p, m) ∧
      ("ab" : String).data.length ≤ p.data.length :=
  claim_longest_match_completeness [("x", "ab"), ("y", "a")] "abc" "x" "ab"
    (by decide) (by decide) (by decide)

/-- C5 counterexample: with the entries ("a", "") and ("b", "x") the text
of the first is empty and the text of the second extends it, yet the node
reached by the characters of the shorter text (the root) carries no
terminal value: the claim as stated fails when the shorter text is empty. -/
theorem claim_coexisting_terminals_cex :
    ("a", ("" : String)) ∈ [("a", ("" : String)), ("b", ("x" : String))] ∧
      ("b", ("x" : String)) ∈ [("a", ("" : String)), ("b", ("x" : String))] ∧
      ("x" : String).data = ("" : String).data ++ ("x" : String).data ∧
      valueAt (generate_tree [("a", ""), ("b", "x")]) ("" : String).data = none := by
  decide

/-- C5 as amended: for every literal set containing an entry with
non-empty text `t` and an entry whose text is `t` followed by a non-empty
`u`, in whichever order they are supplied, the generated trie carries a
terminal value both at the node reached by the characters of `t` and at
the node reached by the characters of `t ++ u`: setting the shorter
terminal does not disturb the subtree of the longer literal. -/
theorem claim_coexisting_terminals (L : List (String × String)) (n1 n2 t u w : String)
    (h1 : (n1, t) ∈ L) (h2 : (n2, w) ∈ L) (hw : w.data = t.data ++ u.data)
    (ht : t.data ≠ []) (hu : u.data ≠ []) :
    (∃ m, valueAt (generate_tree L) t.data = some m) ∧
      (∃ m, valueAt (generate_tree L) (t.data ++ u.data) = some m) := by
  refine ⟨generate_tree_complete L n1 t h1 ht, ?_⟩
  have hres := generate_tree_complete L n2 w h2 (by simp [hw, ht])
  rw [hw] at hres
  exact hres

/-- Witness for the amended C5 at a concrete literal set, with the
shorter literal supplied first. -/
theorem claim_coexisting_terminals_witness :
    (∃ m, valueAt (generate_tree [("a", "+"), ("b", "++")]) ("+" : String).data = some m) ∧
      (∃ m, valueAt (generate_tree [("a", "+"), ("b", "++")])
        (("+" : String).data ++ ("+" : String).data) = some m) :=
  claim_coexisting_terminals [("a", "+"), ("b", "++")] "a" "b" "+" "+" "++"
    (by decide) (by decide) (by decide) (by decide) (by decide)

/-! Lemmas about pattern compilation. -/

theorem compile_error_of_mem {E R : Type} (rnew : String → Except E R)
    (qs : List (String × String)) (key val : String) (e : E)
    (hmem : (key, val) ∈ qs) (hr : rnew val = Except.error e) :
    ∃ e2, compile rnew qs = Except.error e2 := by
  induction qs with
  | nil => cases hmem
  | cons q rest ih =>
    obtain ⟨k0, v0⟩ := q
    cases hr0 : rnew v0 with
    | error e0 => exact ⟨Error.InvalidRegex e0, by simp [compile, hr0]⟩
    | ok r0 =>
      rcases List.mem_cons.mp hmem with hq | hq
      · obtain ⟨hkeq, hveq⟩ := Prod.mk.injEq .. ▸ hq
        rw [← hveq] at hr0
        rw [hr0] at hr
        cases hr
      · obtain ⟨e2, he2⟩ := ih hq
        exact ⟨e2, by simp [compile, hr0, he2]⟩

theorem compile_ok_of_all {E R : Type} (rnew : String → Except E R)
    (qs : List (String × String))
    (hall : ∀ q ∈ qs, ∃ r, rnew q.2 = Except.ok r) :
    ∃ out, compile rnew qs = Except.ok out := by
  induction qs with
  | nil => exact ⟨[], rfl⟩
  | cons q rest ih =>
    obtain ⟨k0, v0⟩ := q
    obtain ⟨r0, hr0⟩ := hall (k0, v0) (List.mem_cons_self _ _)
    obtain ⟨out, hout⟩ := ih (fun q hq => hall q (List.mem_cons_of_mem _ hq))
    exact ⟨(k0, r0) :: out, by simp [compile, hr0, hout]⟩

theorem compile_error_shape {E R : Type} (rnew : String → Except E R)
    (qs : List (String × String)) (e : Error E)
    (h : compile rnew qs = Except.error e) :
    ∃ q ∈ qs, ∃ c, rnew q.2 = Except.error c ∧ e = Error.InvalidRegex c := by
  induction qs with
  | nil => cases h
  | cons q rest ih =>
    obtain ⟨k0, v0⟩ := q
    cases hr0 : rnew v0 with
    | error e0 =>
      refine ⟨(k0, v0), List.mem_cons_self _ _, e0, hr0, ?_⟩
      simp only [compile, hr0] at h
      exact (Except.error.inj h).symm
    | ok r0 =>
      cases hc : compile rnew rest with
      | error e2 =>
        simp only [compile, hr0, hc] at h
        have heq : e2 = e := Except.error.inj h
        subst heq
        obtain ⟨q2, hq2, c, hrc, hec⟩ := ih hc
        exact ⟨q2, List.mem_cons_of_mem _ hq2, c, hrc, hec⟩
      | ok out =>
        simp only [compile, hr0, hc] at h
        cases h

theorem compile_ok_names {E R : Type} (rnew : String → Except E R)
    (qs : List (String × String)) (out : List (String × R))
    (h : compile rnew qs = Except.ok out) :
    out.map Prod.fst = qs.map Prod.fst := by
  induction qs generalizing out with
  | nil =>
    have hout : out = [] := (Except.ok.inj h).symm
    subst hout
    rfl
  | cons q rest ih =>
    obtain ⟨k0, v0⟩ := q
    cases hr0 : rnew v0 with
    | error e0 =>
      simp only [compile, hr0] at h
      cases h
    | ok r0 =>
      cases hc : compile rnew rest with
      | error e2 =>
        simp only [compile, hr0, hc] at h
        cases h
      | ok out2 =>
        simp only [compile, hr0, hc] at h
        have hout : (k0, r0) :: out2 = out := Except.ok.inj h
        subst hout
        simp [ih out2 hc]

theorem adjust_mem {p : String × String} {ps : List (String × String)} :
    p ∈ ps → (p.1, force_start_anchor p.2) ∈ adjust ps := by
  intro h
  exact List.mem_map.mpr ⟨p, h, rfl⟩

/-- C3: `prepare` fails if and only if at least one of the anchor-forced
pattern sources is rejected by the regex capability; by the shape of its
result type a failure produces no compiled sequence at all, so success is
all-or-nothing. -/
theorem claim_prepare_error_iff {E R : Type} (rnew : String → Except E R)
    (ps : List (String × String)) :
    (∃ e, prepare rnew ps = Except.error e) ↔
      ∃ p ∈ ps, ∃ e, rnew (force_start_anchor p.2) = Except.error e := by
  constructor
  · rintro ⟨e, he⟩
    obtain ⟨q, hq, c, hrc, _⟩ := compile_error_shape rnew (adjust ps) e he
    obtain ⟨p, hp, hpq⟩ := List.mem_map.mp hq
    refine ⟨p, hp, c, ?_⟩
    rw [← hpq] at hrc
    exact hrc
  · rintro ⟨p, hp, e, he⟩
    exact compile_error_of_mem rnew (adjust ps) p.1 (force_start_anchor p.2) e
      (adjust_mem hp) he

/-- C4 counterexample: two preparations that differ only in the pattern
name produce the very same error value, so the error cannot carry the
offending name; it is exactly the `InvalidRegex` wrapper around the
underlying diagnostic. -/
theorem claim_invalid_pattern_payload_cex :
    prepare rnewToy [("alpha", "+")] = prepare rnewToy [("beta", "+")] ∧
      prepare rnewToy [("alpha", "+")] = Except.error (Error.InvalidRegex 7) :=
  ⟨rfl, rfl⟩

/-- C4 as amended: when `prepare` fails, the returned error value is
`InvalidRegex` wrapping the underlying compile diagnostic of some
offending pattern; the name of that pattern is not part of the error
value. -/
theorem claim_invalid_pattern_payload {E R : Type} (rnew : String → Except E R)
    (ps : List (String × String)) (e : Error E)
    (h : prepare rnew ps = Except.error e) :
    ∃ p ∈ ps, ∃ c, rnew (force_start_anchor p.2) = Except.error c ∧
      e = Error.InvalidRegex c := by
  obtain ⟨q, hq, c, hrc, hec⟩ := compile_error_shape rnew (adjust ps) e h
  obtain ⟨p, hp, hpq⟩ := List.mem_map.mp hq
  refine ⟨p, hp, c, ?_, hec⟩
  rw [← hpq] at hrc
  exact hrc

/-- Witness for the amended C4 at a concrete failing preparation. -/
theorem claim_invalid_pattern_payload_witness :
    ∃ p ∈ [(("alpha" : String), ("+" : String))], ∃ c,
      rnewToy (force_start_anchor p.2) = Except.error c ∧
        Error.InvalidRegex (E := Nat) 7 = Error.InvalidRegex c :=
  claim_invalid_pattern_payload rnewToy [("alpha", "+")] (Error.InvalidRegex 7) rfl

/-- C6: on success `prepare` returns as many compiled patterns as it was
given, with the names unchanged position by position (duplicates kept,
order preserved, nothing dropped). -/
theorem claim_prepare_preserves_names {E R : Type} (rnew : String → Except E R)
    (ps : List (String × String)) (out : List (String × R))
    (h : prepare rnew ps = Except.ok out) :
    out.length = ps.length ∧ out.map Prod.fst = ps.map Prod.fst := by
  have hm := compile_ok_names rnew (adjust ps) out h
  have hadj : (adjust ps).map Prod.fst = ps.map Prod.fst := by
    simp [adjust]
  have hnames : out.map Prod.fst = ps.map Prod.fst := hm.trans hadj
  constructor
  · have hlen := congrArg List.length hnames
    simpa using hlen
  · exact hnames

/-- Witness for C6 at a concrete preparation with a duplicated name. -/
theorem claim_prepare_preserves_names_witness :
    ([("a", "^(?:x)"), ("a", "^(?:y)")] : List (String × String)).length
        = ([("a", "x"), ("a", "y")] : List (String × String)).length ∧
      ([("a", "^(?:x)"), ("a", "^(?:y)")] : List (String × String)).map Prod.fst
        = ([("a", "x"), ("a", "y")] : List (String × String)).map Prod.fst :=
  claim_prepare_preserves_names rnewOk [("a", "x"), ("a", "y")]
    [("a", "^(?:x)"), ("a", "^(?:y)")] rfl

/-- C8: anchor-forcing the source `^\d+` removes the redundant leading
caret and adds the anchored non-capturing wrapper, giving exactly
`^(?:\d+)`. -/
theorem claim_anchor_digits : force_start_anchor "^\\d+" = "^(?:\\d+)" := by
  decide

/-! Lemmas about anchor removal on single-byte patterns. -/

theorem anchorIdx_lb (l : List Char) (prev : Char) (i : Nat) (j : Nat)
    (hj : j ∈ anchorIdx prev i l) : i ≤ j := by
  induction l generalizing prev i with
  | nil => simp [anchorIdx] at hj
  | cons c rest ih =>
    by_cases hrem : c = '^' ∧ prev ≠ '[' ∧ prev ≠ '\\'
    · simp only [anchorIdx, if_pos hrem, List.mem_cons] at hj
      rcases hj with hj | hj
      · omega
      · have := ih c (i + c.utf8Size) hj
        omega
    · simp only [anchorIdx, if_neg hrem] at hj
      have := ih c (i + c.utf8Size) hj
      omega

theorem removeAtGo_spec (l : List Char) (prev : Char) (i : Nat) (A : List Nat)
    (hA : ∀ c ∈ l, c.utf8Size = 1)
    (hmem : ∀ j, i ≤ j → (j ∈ A ↔ j ∈ anchorIdx prev i l)) :
    removeAtGo i A l = specClean prev l := by
  induction l generalizing prev i with
  | nil => simp [removeAtGo, specClean]
  | cons c rest ih =>
    have hc1 : c.utf8Size = 1 := hA c (List.mem_cons_self _ _)
    have hArest : ∀ c2 ∈ rest, c2.utf8Size = 1 :=
      fun c2 hc2 => hA c2 (List.mem_cons_of_mem _ hc2)
    have hmem2 : ∀ j, i + 1 ≤ j → (j ∈ A ↔ j ∈ anchorIdx c (i + 1) rest) := by
      intro j hij
      rw [hmem j (by omega)]
      by_cases hrem : c = '^' ∧ prev ≠ '[' ∧ prev ≠ '\\'
      · simp only [anchorIdx, if_pos hrem, hc1, List.mem_cons]
        constructor
        · rintro (hji | hji)
          · omega
          · exact hji
        · intro hji
          exact Or.inr hji
      · simp only [anchorIdx, if_neg hrem, hc1]
    by_cases hrem : c = '^' ∧ prev ≠ '[' ∧ prev ≠ '\\'
    · have hiA : i ∈ A := by
        rw [hmem i (Nat.le_refl i)]
        simp [anchorIdx, if_pos hrem]
      rw [show removeAtGo i A (c :: rest) = removeAtGo (i + 1) A rest from by
          simp [removeAtGo, hiA]]
      rw [show specClean prev (c :: rest) = specClean c rest from by
          simp [specClean, hrem]]
      exact ih c (i + 1) hArest hmem2
    · have hiA : i ∉ A := by
        intro hin
        have hidx := (hmem i (Nat.le_refl i)).mp hin
        simp only [anchorIdx, if_neg hrem, hc1] at hidx
        have := anchorIdx_lb rest c (i + 1) i hidx
        omega
      rw [show removeAtGo i A (c :: rest) = c :: removeAtGo (i + 1) A rest from by
          simp [removeAtGo, hiA]]
      rw [show specClean prev (c :: rest) = c :: specClean c rest from by
          simp [specClean, hrem]]
      rw [ih c (i + 1) hArest hmem2]

theorem fsa_ascii (p : String) (hA : ∀ c ∈ p.data, c.utf8Size = 1) :
    force_start_anchor p = specAnchored p := by
  have h := removeAtGo_spec p.data (Char.ofNat 0) 0 (anchorIdx (Char.ofNat 0) 0 p.data)
    hA (fun j _ => Iff.rfl)
  simp only [force_start_anchor, specAnchored, h]

theorem ascii_utf8Size (c : Char) (h : c.toNat < 128) : c.utf8Size = 1 := by
  have hle : c.val ≤ UInt32.ofNatCore 0x7F (by decide) := by
    have hn : c.val.toNat ≤ 127 := by
      have hx : c.toNat < 128 := h
      exact Nat.lt_succ_iff.mp hx
    exact hn
  simp only [Char.utf8Size]
  rw [if_pos hle]

/-- C2 counterexample: on the pattern consisting of a two-byte character
followed by a caret, the caret has a predecessor that is neither an
opening bracket nor a backslash, yet `force_start_anchor` keeps it: the
removable-anchor byte index 2 is never matched by the character ordinal
1 used during deletion, so the output differs from the claimed result. -/
theorem claim_anchor_removal_cex :
    force_start_anchor "é^" = "^(?:é^)" ∧ specAnchored "é^" = "^(?:é)" ∧
      force_start_anchor "é^" ≠ specAnchored "é^" := by
  refine ⟨by decide, by decide, by decide⟩

/-- C2 as amended: for every pattern whose characters are all single-byte
in UTF-8, `force_start_anchor` returns the anchored wrapper around the
pattern with exactly those carets deleted whose immediately preceding
character is neither an opening bracket nor a backslash (the first
character having no protecting predecessor), every other character kept
unchanged and in order. -/
theorem claim_anchor_removal_ascii (p : String)
    (hA : ∀ c ∈ p.data, c.utf8Size = 1) :
    force_start_anchor p = specAnchored p :=
  fsa_ascii p hA

/-- Witness for the amended C2 on a pattern with carets in several
positions. -/
theorem claim_anchor_removal_ascii_witness :
    force_start_anchor "^x|^y" = specAnchored "^x|^y" :=
  claim_anchor_removal_ascii "^x|^y" (by decide)

/-- C10: for patterns made only of ASCII characters, the byte offsets of
`char_indices` and the ordinals of `chars().enumerate()` coincide, so
`force_start_anchor` removes exactly the carets not preceded by an
opening bracket or a backslash and wraps the remainder in the anchored
non-capturing group. -/
theorem claim_anchor_removal_single_byte (p : String)
    (hA : ∀ c ∈ p.data, c.toNat < 128) :
    force_start_anchor p = specAnchored p :=
  fsa_ascii p (fun c hc => ascii_utf8Size c (hA c hc))

/-- Witness for C10 on a pattern exercising protected and unprotected
carets. -/
theorem claim_anchor_removal_single_byte_witness :
    force_start_anchor "a[^b]\\^c^d" = specAnchored "a[^b]\\^c^d" :=
  claim_anchor_removal_single_byte "a[^b]\\^c^d" (by decide)

end Crossandra
